import Mathlib

/-!
Shallow embedding of the ethereum p2p demo repository.

Embedded code:
* the `foo` ping/pong protocol session runtime (`proto.Run` in
  src/unnamed/part_000): a session adds one unit to the shared `pingW`
  barrier, sends one initial ping, then loops reading messages, replying
  with one pong to every ping and terminating the loop on its own pong,
  after which it waits on the barrier and signals `protoW` before
  returning nil;
* the convergence-engine demo driver (src/p2p/protocol-complex/sim.go):
  the `check` predicate handed to the simulation Step;
* the convergence engine itself (go-ethereum `simulations.Run`), which is
  not part of the repository sources and is modelled from the spec.

A session run is embedded as a deterministic function of the list of
receive-side events (read errors, decode errors, decoded messages), a
clock assigning a creation time to each send, and a send-failure oracle.
It produces the run outcome, the ordered trace of side effects (sends and
barrier operations), and the list of events actually consumed.
-/

namespace proto

/-- Wire message of the `foo` protocol (`FooPingMsg` in the source): an
acknowledgement flag `Pong` and a creation timestamp `Created`. -/
structure FooPingMsg where
  Pong : Bool
  Created : Nat
deriving DecidableEq

/-- One observable input to a session's receive loop: `rw.ReadMsg()`
failing, `msg.Decode` failing, or a successfully decoded `FooPingMsg`. -/
inductive NetEvent where
  | readErr (e : String)
  | decodeErr (e : String)
  | msg (m : FooPingMsg)
deriving DecidableEq

/-- Side effects of one session run, in program order: `pingW.Add(1)`, a
successful `p2p.Send`, `pingW.Done()`, `pingW.Wait()` completing, and
`protoW.Done()` executed just before `Run` returns nil. -/
inductive SessionAct where
  | barrierAdd
  | send (m : FooPingMsg)
  | barrierDone
  | barrierWait
  | protoDone
deriving DecidableEq

/-- How the receive loop (`for !ponged { ... }`) ended: the session's own
acknowledgement arrived (`ponged`), an error was returned (`failed`), or
the input stream ran dry while the loop would keep reading (`starved`). -/
inductive LoopOut where
  | ponged
  | failed (e : String)
  | starved
deriving DecidableEq

/-- Result of the receive loop: how it ended, the side effects it
performed, and the receive events it consumed. -/
structure LoopResult where
  out : LoopOut
  acts : List SessionAct
  consumed : List NetEvent
deriving DecidableEq

/-- How `proto.Run` ended: returned nil (`ok`), returned an error
(`err`), or would block forever on `ReadMsg` (`blocked`). -/
inductive SessionOut where
  | ok
  | err (e : String)
  | blocked
deriving DecidableEq

/-- Result of one `proto.Run` invocation: outcome, ordered side-effect
trace, and the receive events consumed. -/
structure RunResult where
  out : SessionOut
  trace : List SessionAct
  consumed : List NetEvent
deriving DecidableEq

/-- The receive loop of `proto.Run` (src/unnamed/part_000 lines 55-87):
while the session has not seen its own pong, read a message; a read or
decode failure returns a wrapped error; a pong sets `ponged` and releases
one `pingW` unit; a ping is answered with exactly one pong (stamped by
`clock` with the current send index) and the loop continues. -/
def runLoop (clock : Nat → Nat) (sendErr : Nat → Option String) :
    Nat → List NetEvent → LoopResult
  | _, [] => ⟨.starved, [], []⟩
  | _, .readErr e :: _ =>
      ⟨.failed ("Receive p2p message fail: " ++ e), [], [.readErr e]⟩
  | _, .decodeErr e :: _ =>
      ⟨.failed ("Decode p2p message fail: " ++ e), [], [.decodeErr e]⟩
  | k, .msg m :: rest =>
      if m.Pong then
        ⟨.ponged, [.barrierDone], [.msg m]⟩
      else
        match sendErr k with
        | some e => ⟨.failed ("Send p2p message fail: " ++ e), [], [.msg m]⟩
        | none =>
            let r := runLoop clock sendErr (k + 1) rest
            ⟨r.out, .send ⟨true, clock k⟩ :: r.acts, .msg m :: r.consumed⟩

/-- `proto.Run` (src/unnamed/part_000 lines 37-93): `pingW.Add(1)`, send
the initial ping (send index 0), run the receive loop, and on loop
completion wait on `pingW` and signal `protoW` before returning nil. -/
def Run (clock : Nat → Nat) (sendErr : Nat → Option String)
    (events : List NetEvent) : RunResult :=
  match sendErr 0 with
  | some e => ⟨.err ("Send p2p message fail: " ++ e), [.barrierAdd], []⟩
  | none =>
      let r := runLoop clock sendErr 1 events
      match r.out with
      | .ponged =>
          ⟨.ok,
            .barrierAdd :: .send ⟨false, clock 0⟩ ::
              (r.acts ++ [.barrierWait, .protoDone]),
            r.consumed⟩
      | .failed e =>
          ⟨.err e, .barrierAdd :: .send ⟨false, clock 0⟩ :: r.acts,
            r.consumed⟩
      | .starved =>
          ⟨.blocked, .barrierAdd :: .send ⟨false, clock 0⟩ :: r.acts,
            r.consumed⟩

/-- A decoded message that is a ping (its `Pong` flag is false). -/
def NetEvent.isPing : NetEvent → Bool
  | .msg m => !m.Pong
  | _ => false

/-- A decoded message that is an acknowledgement (its `Pong` flag is
true). -/
def NetEvent.isAck : NetEvent → Bool
  | .msg m => m.Pong
  | _ => false

/-- A receive-side failure: a read error or a decode error. -/
def NetEvent.isFailure : NetEvent → Bool
  | .readErr _ => true
  | .decodeErr _ => true
  | .msg _ => false

/-- The error string `proto.Run` wraps around a receive-side failure. -/
def failMsg : NetEvent → String
  | .readErr e => "Receive p2p message fail: " ++ e
  | .decodeErr e => "Decode p2p message fail: " ++ e
  | .msg _ => ""

/-- A `pingW.Add(1)` action. -/
def SessionAct.isAdd : SessionAct → Bool
  | .barrierAdd => true
  | _ => false

/-- A `pingW.Done()` action. -/
def SessionAct.isDone : SessionAct → Bool
  | .barrierDone => true
  | _ => false

/-- A successful `p2p.Send` action. -/
def SessionAct.isSend : SessionAct → Bool
  | .send _ => true
  | _ => false

/-- The messages sent by a trace, in order. -/
def sentMsgs (t : List SessionAct) : List FooPingMsg :=
  t.filterMap fun a =>
    match a with
    | .send m => some m
    | _ => none

/-- The pong replies sent from send index `k` on, for `n` received pings:
each stamped by the clock at its own send index. -/
def ackReplies (clock : Nat → Nat) : Nat → Nat → List FooPingMsg
  | _, 0 => []
  | k, n + 1 => ⟨true, clock k⟩ :: ackReplies clock (k + 1) n

/-- Number of `pingW.Add(1)` actions in a trace. -/
def addsIn (t : List SessionAct) : Nat := t.countP SessionAct.isAdd

/-- Number of `pingW.Done()` actions in a trace. -/
def donesIn (t : List SessionAct) : Nat := t.countP SessionAct.isDone

/-- Number of successful sends in a trace. -/
def sendsIn (t : List SessionAct) : Nat := t.countP SessionAct.isSend

/-- The subsequence of a global schedule belonging to session `i`: a
schedule interleaves the per-session side-effect traces of `n`
concurrently running sessions, tagging each action with its session. -/
def projTrace {n : Nat} (i : Fin n) :
    List (Fin n × SessionAct) → List SessionAct
  | [] => []
  | p :: t => if p.1 = i then p.2 :: projTrace i t else projTrace i t

/-- `s` is an interleaving of the given per-session traces: each
session's actions appear in `s` in their own order, tagged with the
session. -/
def IsSchedule {n : Nat} (traces : Fin n → List SessionAct)
    (s : List (Fin n × SessionAct)) : Prop :=
  ∀ i, projTrace i s = traces i

/-- `sync.WaitGroup` semantics of the shared `pingW` barrier: a
`pingW.Wait()` can only complete at a point of the schedule where the
barrier counter — `Add`s minus `Done`s so far — is zero. -/
def ValidSched {n : Nat} (s : List (Fin n × SessionAct)) : Prop :=
  ∀ k, (hk : k < s.length) → (s.get ⟨k, hk⟩).2 = SessionAct.barrierWait →
    addsIn ((s.take k).map Prod.snd) = donesIn ((s.take k).map Prod.snd)

/-- Receive events of a session that gets one peer ping followed by its
own acknowledgement. -/
def sampleEvents : List NetEvent := [.msg ⟨false, 9⟩, .msg ⟨true, 9⟩]

/-- A concrete valid interleaving of two completed sessions, each driven
by `sampleEvents` with the identity clock: both sessions add to the
barrier, exchange messages and release the barrier before either
completes its wait. -/
def sampleSched : List (Fin 2 × SessionAct) :=
  [(0, .barrierAdd), (1, .barrierAdd),
   (0, .send ⟨false, 0⟩), (0, .send ⟨true, 1⟩), (0, .barrierDone),
   (1, .send ⟨false, 0⟩), (1, .send ⟨true, 1⟩), (1, .barrierDone),
   (0, .barrierWait), (0, .protoDone), (1, .barrierWait), (1, .protoDone)]

end proto

namespace simulations

/-- Modelled from the spec: one occurrence the Convergence Engine's wait
observes (spec section 4.3 step 3) — a Trigger value carrying a node id,
the asynchronous Action completing with an error, or the cancellation
signal firing.  The engine itself (go-ethereum `simulations.Run`) is not
among the repository sources; only its caller in
src/p2p/protocol-complex/sim.go is. -/
inductive StepEvent where
  | trigger (id : Nat)
  | actionErr (e : String)
  | cancel
deriving DecidableEq

/-- Modelled from the spec: how a Step run ended — success, a
TimeoutError carrying the still-pending node set, an abort with a Check
or Action error, or the event stream running dry with the engine still
waiting. -/
inductive StepOut where
  | success
  | timeout (pending : List Nat)
  | failed (e : String)
  | incomplete
deriving DecidableEq

/-- Modelled from the spec: the observable result of a Step run — the
outcome, the pending set at the moment the run ended, the node ids on
which `Expectation.Check` was invoked (in order), and the events the
engine consumed. -/
structure StepResult where
  out : StepOut
  pendingFinal : List Nat
  checks : List Nat
  consumed : List StepEvent
deriving DecidableEq

/-- Modelled from the spec (section 4.3 steps 3-4): the Convergence
Engine's wait loop.  The step succeeds the moment `pending` is empty.
Otherwise, on a Trigger value not in `pending` the value is ignored
(no Check call, no mutation); on a Trigger value in `pending`,
`check` is invoked (its first argument is the running count of Check
invocations, letting the predicate's answer vary between wakeups):
an error aborts the step with it, `true` removes the id, `false`
leaves it pending; an Action error aborts the step with it; the
cancellation signal aborts the step with a timeout carrying the
still-pending set. -/
def runStep (check : Nat → Nat → Bool × Option String) :
    Nat → List Nat → List StepEvent → StepResult
  | _, pending, [] =>
      if pending = [] then ⟨.success, [], [], []⟩
      else ⟨.incomplete, pending, [], []⟩
  | cc, pending, ev :: rest =>
      if pending = [] then ⟨.success, [], [], []⟩
      else
        match ev with
        | .cancel => ⟨.timeout pending, pending, [], [.cancel]⟩
        | .actionErr e => ⟨.failed e, pending, [], [.actionErr e]⟩
        | .trigger id =>
            if id ∈ pending then
              match check cc id with
              | (_, some e) => ⟨.failed e, pending, [id], [.trigger id]⟩
              | (true, none) =>
                  let r := runStep check (cc + 1) (pending.erase id) rest
                  ⟨r.out, r.pendingFinal, id :: r.checks,
                    .trigger id :: r.consumed⟩
              | (false, none) =>
                  let r := runStep check (cc + 1) pending rest
                  ⟨r.out, r.pendingFinal, id :: r.checks,
                    .trigger id :: r.consumed⟩
            else
              let r := runStep check cc pending rest
              ⟨r.out, r.pendingFinal, r.checks, .trigger id :: r.consumed⟩

/-- Modelled from the spec (section 4.3 step 2): `Run` initialises the
pending set to a copy of the Expectation's target node set and enters the
wait loop. -/
def Run (check : Nat → Nat → Bool × Option String) (targets : List Nat)
    (events : List StepEvent) : StepResult :=
  runStep check 0 targets events

end simulations

/-- The `check` closure of src/p2p/protocol-complex/sim.go (lines
149-156): it selects on `ctx.Done()` with a `default` branch — a no-op
whether or not the context is done — logs, and returns `(true, nil)`. -/
def check (_ctxDone : Bool) (_nid : Nat) : Bool × Option String :=
  (true, none)

namespace simulations

/-- Core characterisation of the engine's wait loop: success happens
exactly when the pending set drains; a successful run never consumes the
cancellation signal; and consuming the cancellation signal yields a
timeout carrying exactly the (nonempty) still-pending set. -/
theorem runStep_char (chk : Nat → Nat → Bool × Option String) :
    ∀ (events : List StepEvent) (cc : Nat) (pending : List Nat),
      ((runStep chk cc pending events).out = .success ↔
        (runStep chk cc pending events).pendingFinal = []) ∧
      ((runStep chk cc pending events).out = .success →
        StepEvent.cancel ∉ (runStep chk cc pending events).consumed) ∧
      (StepEvent.cancel ∈ (runStep chk cc pending events).consumed →
        (runStep chk cc pending events).out =
          .timeout (runStep chk cc pending events).pendingFinal ∧
        (runStep chk cc pending events).pendingFinal ≠ []) := by
  intro events
  induction events with
  | nil =>
      intro cc pending
      by_cases hp : pending = [] <;> simp [runStep, hp]
  | cons ev rest ih =>
      intro cc pending
      by_cases hp : pending = []
      · simp [runStep, hp]
      · cases ev with
        | cancel => simp [runStep, hp]
        | actionErr e => simp [runStep, hp]
        | trigger id =>
            by_cases hid : id ∈ pending
            · rcases hc : chk cc id with ⟨b, oe⟩
              cases oe with
              | some e => simp [runStep, hp, hid, hc]
              | none =>
                  cases b with
                  | true =>
                      simpa [runStep, hp, hid, hc] using
                        ih (cc + 1) (pending.erase id)
                  | false =>
                      simpa [runStep, hp, hid, hc] using ih (cc + 1) pending
            · simpa [runStep, hp, hid] using ih cc pending

end simulations

/-- **C2**: for every node identifier and every context state, the
canonical `check` predicate supplied to the Step in the demo flow
(src/p2p/protocol-complex/sim.go) returns `(true, nil)`: it never returns
false and never returns an error, regardless of the node's actual
state. -/
theorem claim_c2 (ctxDone : Bool) (nid : Nat) : check ctxDone nid = (true, none) :=
  rfl

/-- **C1, counterexample**: with a Check predicate that returns an error,
the Step run aborts with that error — the result is neither success nor a
TimeoutError, and the pending set never drained — so "otherwise Run
returns a TimeoutError" is false as stated. -/
theorem claim_c1_cex :
    (simulations.Run (fun _ _ => (true, some "Check error")) [1]
        [.trigger 1]).out ≠ .success ∧
    (∀ p, (simulations.Run (fun _ _ => (true, some "Check error")) [1]
        [.trigger 1]).out ≠ .timeout p) ∧
    (simulations.Run (fun _ _ => (true, some "Check error")) [1]
        [.trigger 1]).pendingFinal ≠ [] := by
  have h : (simulations.Run (fun _ _ => (true, some "Check error")) [1]
      [.trigger 1]).out = .failed "Check error" := by decide
  refine ⟨?_, ?_, by decide⟩
  · rw [h]
    intro hs
    cases hs
  · intro p hp
    rw [h] at hp
    cases hp

/-- **C1** (amended): for every Step execution, Run returns success if
and only if the pending set (initialised to a copy of the Expectation's
target node set) drains to empty, which can only happen strictly before
the cancellation deadline fires; if the run instead consumes the
cancellation signal, it returns a TimeoutError carrying exactly the
(nonempty) set of nodes still pending at the moment of cancellation —
while a Check error or Action error aborts the step with that error
rather than a TimeoutError. -/
theorem claim_c1 (chk : Nat → Nat → Bool × Option String)
    (targets : List Nat) (events : List simulations.StepEvent) :
    ((simulations.Run chk targets events).out = .success ↔
      (simulations.Run chk targets events).pendingFinal = []) ∧
    ((simulations.Run chk targets events).out = .success →
      simulations.StepEvent.cancel ∉
        (simulations.Run chk targets events).consumed) ∧
    (simulations.StepEvent.cancel ∈
        (simulations.Run chk targets events).consumed →
      (simulations.Run chk targets events).out =
        .timeout (simulations.Run chk targets events).pendingFinal ∧
      (simulations.Run chk targets events).pendingFinal ≠ []) :=
  simulations.runStep_char chk events 0 targets

/-- **C1, witness**: a concrete run over targets `[1, 2]` that resolves
node 1 and is then cancelled returns a TimeoutError carrying exactly the
still-pending node 2. -/
theorem claim_c1_witness :
    (simulations.Run (fun _ _ => (true, none)) [1, 2]
        [.trigger 1, .cancel]).out =
      .timeout (simulations.Run (fun _ _ => (true, none)) [1, 2]
        [.trigger 1, .cancel]).pendingFinal ∧
    (simulations.Run (fun _ _ => (true, none)) [1, 2]
        [.trigger 1, .cancel]).pendingFinal ≠ [] :=
  (claim_c1 (fun _ _ => (true, none)) [1, 2] [.trigger 1, .cancel]).2.2
    (by decide)

/-- **C8**: a Trigger value carrying a node id not currently in the
pending set is ignored by the Convergence Engine: the run's outcome,
final pending set and the sequence of `Expectation.Check` invocations are
exactly those of the run without that value — the trigger is consumed but
Check is not invoked for it, the pending set is not mutated, and it is
not treated as an error. -/
theorem claim_c8 (chk : Nat → Nat → Bool × Option String) (cc : Nat)
    (pending : List Nat) (id : Nat) (rest : List simulations.StepEvent)
    (hne : pending ≠ []) (hid : id ∉ pending) :
    (simulations.runStep chk cc pending (.trigger id :: rest)).out =
      (simulations.runStep chk cc pending rest).out ∧
    (simulations.runStep chk cc pending (.trigger id :: rest)).pendingFinal =
      (simulations.runStep chk cc pending rest).pendingFinal ∧
    (simulations.runStep chk cc pending (.trigger id :: rest)).checks =
      (simulations.runStep chk cc pending rest).checks ∧
    (simulations.runStep chk cc pending (.trigger id :: rest)).consumed =
      .trigger id :: (simulations.runStep chk cc pending rest).consumed := by
  simp [simulations.runStep, hne, hid]

/-- **C8, witness**: with pending set `[1]`, a trigger for the unexpected
node 7 is consumed without invoking Check, without mutating pending, and
without an error: the run is then cancelled and times out on node 1
either way. -/
theorem claim_c8_witness :
    (simulations.runStep (fun _ _ => (true, none)) 0 [1]
        [.trigger 7, .cancel]).out =
      (simulations.runStep (fun _ _ => (true, none)) 0 [1] [.cancel]).out ∧
    (simulations.runStep (fun _ _ => (true, none)) 0 [1]
        [.trigger 7, .cancel]).pendingFinal =
      (simulations.runStep (fun _ _ => (true, none)) 0 [1]
        [.cancel]).pendingFinal ∧
    (simulations.runStep (fun _ _ => (true, none)) 0 [1]
        [.trigger 7, .cancel]).checks =
      (simulations.runStep (fun _ _ => (true, none)) 0 [1]
        [.cancel]).checks ∧
    (simulations.runStep (fun _ _ => (true, none)) 0 [1]
        [.trigger 7, .cancel]).consumed =
      .trigger 7 :: (simulations.runStep (fun _ _ => (true, none)) 0 [1]
        [.cancel]).consumed :=
  claim_c8 (fun _ _ => (true, none)) 0 [1] 7 [.cancel] (by decide) (by decide)

namespace proto

/-- Being a ping means being a decoded message whose `Pong` flag is
false. -/
theorem isPing_iff (x : NetEvent) :
    NetEvent.isPing x = true ↔ ∃ m, x = .msg m ∧ m.Pong = false := by
  cases x <;> simp [NetEvent.isPing]

/-- When all sends succeed, the loop consumes an all-ping prefix followed
by an acknowledgement, answers each ping with exactly one pong at
consecutive send indices, releases one barrier unit, and stops; events
after the acknowledgement are not consumed. -/
theorem runLoop_pings_then_ack (clock : Nat → Nat) (se : Nat → Option String)
    (hse : ∀ i, se i = none) (m : FooPingMsg) (hm : m.Pong = true)
    (rest : List NetEvent) :
    ∀ (pre : List NetEvent) (k : Nat),
      (∀ x ∈ pre, NetEvent.isPing x = true) →
      runLoop clock se k (pre ++ .msg m :: rest) =
        ⟨.ponged, (ackReplies clock k pre.length).map .send ++ [.barrierDone],
          pre ++ [.msg m]⟩ := by
  intro pre
  induction pre with
  | nil =>
      intro k _
      simp [runLoop, hm, ackReplies]
  | cons x t ih =>
      intro k hpre
      have hx := hpre x (List.mem_cons_self x t)
      rcases (isPing_iff x).mp hx with ⟨mx, hxe, hmx⟩
      subst hxe
      have ht : ∀ y ∈ t, NetEvent.isPing y = true := fun y hy =>
        hpre y (List.mem_cons_of_mem _ hy)
      simp [runLoop, hmx, hse k, ih (k + 1) ht, ackReplies]

/-- When all sends succeed and every incoming event is a ping, the loop
answers each ping and then starves waiting for more input: it never
terminates on pings alone. -/
theorem runLoop_all_pings (clock : Nat → Nat) (se : Nat → Option String)
    (hse : ∀ i, se i = none) :
    ∀ (events : List NetEvent) (k : Nat),
      (∀ x ∈ events, NetEvent.isPing x = true) →
      runLoop clock se k events =
        ⟨.starved, (ackReplies clock k events.length).map .send, events⟩ := by
  intro events
  induction events with
  | nil =>
      intro k _
      simp [runLoop, ackReplies]
  | cons x t ih =>
      intro k hall
      rcases (isPing_iff x).mp (hall x (List.mem_cons_self x t)) with
        ⟨mx, hxe, hmx⟩
      subst hxe
      have ht : ∀ y ∈ t, NetEvent.isPing y = true := fun y hy =>
        hall y (List.mem_cons_of_mem _ hy)
      simp [runLoop, hmx, hse k, ih (k + 1) ht, ackReplies]

/-- When all sends succeed, a receive or decode failure arriving after an
all-ping prefix makes the loop stop at once with the wrapped error: the
failing event is the last one consumed and no barrier unit is
released. -/
theorem runLoop_pings_then_fail (clock : Nat → Nat) (se : Nat → Option String)
    (hse : ∀ i, se i = none) (bad : NetEvent)
    (hbad : NetEvent.isFailure bad = true) (post : List NetEvent) :
    ∀ (pre : List NetEvent) (k : Nat),
      (∀ x ∈ pre, NetEvent.isPing x = true) →
      runLoop clock se k (pre ++ bad :: post) =
        ⟨.failed (failMsg bad), (ackReplies clock k pre.length).map .send,
          pre ++ [bad]⟩ := by
  intro pre
  induction pre with
  | nil =>
      intro k _
      cases bad with
      | readErr e => simp [runLoop, failMsg, ackReplies]
      | decodeErr e => simp [runLoop, failMsg, ackReplies]
      | msg m => simp [NetEvent.isFailure] at hbad
  | cons x t ih =>
      intro k hpre
      rcases (isPing_iff x).mp (hpre x (List.mem_cons_self x t)) with
        ⟨mx, hxe, hmx⟩
      subst hxe
      have ht : ∀ y ∈ t, NetEvent.isPing y = true := fun y hy =>
        hpre y (List.mem_cons_of_mem _ hy)
      simp [runLoop, hmx, hse k, ih (k + 1) ht, ackReplies]

/-- When all sends succeed, the loop terminates normally exactly when the
input, after its maximal ping prefix, continues with an
acknowledgement. -/
theorem runLoop_ponged_iff (clock : Nat → Nat) (se : Nat → Option String)
    (hse : ∀ i, se i = none) :
    ∀ (events : List NetEvent) (k : Nat),
      (runLoop clock se k events).out = .ponged ↔
        ∃ m rest, events.dropWhile NetEvent.isPing = .msg m :: rest ∧
          m.Pong = true := by
  intro events
  induction events with
  | nil =>
      intro k
      simp [runLoop, List.dropWhile]
  | cons x t ih =>
      intro k
      cases x with
      | readErr e => simp [runLoop, List.dropWhile, NetEvent.isPing]
      | decodeErr e => simp [runLoop, List.dropWhile, NetEvent.isPing]
      | msg m =>
          cases hm : m.Pong with
          | true =>
              simp [runLoop, List.dropWhile, NetEvent.isPing, hm]
          | false =>
              simpa [runLoop, List.dropWhile, NetEvent.isPing, hm, hse k]
                using ih (k + 1)

/-- The consumed events are an initial segment of the input. -/
theorem runLoop_consumed_init (clock : Nat → Nat) (se : Nat → Option String) :
    ∀ (events : List NetEvent) (k : Nat),
      ∃ rest, (runLoop clock se k events).consumed ++ rest = events := by
  intro events
  induction events with
  | nil => intro k; exact ⟨[], rfl⟩
  | cons x t ih =>
      intro k
      cases x with
      | readErr e => exact ⟨t, rfl⟩
      | decodeErr e => exact ⟨t, rfl⟩
      | msg m =>
          cases hm : m.Pong with
          | true => exact ⟨t, by simp [runLoop, hm]⟩
          | false =>
              cases hsk : se k with
              | some e => exact ⟨t, by simp [runLoop, hm, hsk]⟩
              | none =>
                  rcases ih (k + 1) with ⟨q, hq⟩
                  exact ⟨q, by simp [runLoop, hm, hsk, hq]⟩

/-- When all sends succeed, the loop sends exactly one pong per ping it
consumed: acknowledgements it receives cause no send. -/
theorem runLoop_sends (clock : Nat → Nat) (se : Nat → Option String)
    (hse : ∀ i, se i = none) :
    ∀ (events : List NetEvent) (k : Nat),
      sendsIn (runLoop clock se k events).acts =
        (runLoop clock se k events).consumed.countP NetEvent.isPing := by
  intro events
  induction events with
  | nil => intro k; simp [runLoop, sendsIn]
  | cons x t ih =>
      intro k
      cases x with
      | readErr e =>
          simp [runLoop, sendsIn, NetEvent.isPing]
      | decodeErr e =>
          simp [runLoop, sendsIn, NetEvent.isPing]
      | msg m =>
          cases hm : m.Pong with
          | true =>
              simp [runLoop, hm, sendsIn, SessionAct.isSend, NetEvent.isPing,
                List.countP_cons]
          | false =>
              have := ih (k + 1)
              simp [runLoop, hm, hse k, sendsIn, SessionAct.isSend,
                NetEvent.isPing, List.countP_cons] at this ⊢
              omega

/-- The loop never performs `pingW.Add`. -/
theorem runLoop_no_add (clock : Nat → Nat) (se : Nat → Option String) :
    ∀ (events : List NetEvent) (k : Nat),
      SessionAct.barrierAdd ∉ (runLoop clock se k events).acts := by
  intro events
  induction events with
  | nil => intro k; simp [runLoop]
  | cons x t ih =>
      intro k
      cases x with
      | readErr e => simp [runLoop]
      | decodeErr e => simp [runLoop]
      | msg m =>
          cases hm : m.Pong with
          | true => simp [runLoop, hm]
          | false =>
              cases hsk : se k with
              | some e => simp [runLoop, hm, hsk]
              | none => simp [runLoop, hm, hsk, ih (k + 1)]

/-- The loop never completes a `pingW.Wait`. -/
theorem runLoop_no_wait (clock : Nat → Nat) (se : Nat → Option String) :
    ∀ (events : List NetEvent) (k : Nat),
      SessionAct.barrierWait ∉ (runLoop clock se k events).acts := by
  intro events
  induction events with
  | nil => intro k; simp [runLoop]
  | cons x t ih =>
      intro k
      cases x with
      | readErr e => simp [runLoop]
      | decodeErr e => simp [runLoop]
      | msg m =>
          cases hm : m.Pong with
          | true => simp [runLoop, hm]
          | false =>
              cases hsk : se k with
              | some e => simp [runLoop, hm, hsk]
              | none => simp [runLoop, hm, hsk, ih (k + 1)]

/-- The loop releases at most one barrier unit. -/
theorem runLoop_dones_le_one (clock : Nat → Nat) (se : Nat → Option String) :
    ∀ (events : List NetEvent) (k : Nat),
      donesIn (runLoop clock se k events).acts ≤ 1 := by
  intro events
  induction events with
  | nil => intro k; simp [runLoop, donesIn]
  | cons x t ih =>
      intro k
      cases x with
      | readErr e => simp [runLoop, donesIn]
      | decodeErr e => simp [runLoop, donesIn]
      | msg m =>
          cases hm : m.Pong with
          | true => simp [runLoop, hm, donesIn, SessionAct.isDone]
          | false =>
              cases hsk : se k with
              | some e => simp [runLoop, hm, hsk, donesIn]
              | none =>
                  have := ih (k + 1)
                  simp [runLoop, hm, hsk, donesIn, SessionAct.isDone,
                    List.countP_cons] at this ⊢
                  omega

/-- If the loop released a barrier unit, it consumed an
acknowledgement. -/
theorem runLoop_done_imp_ack (clock : Nat → Nat) (se : Nat → Option String) :
    ∀ (events : List NetEvent) (k : Nat),
      SessionAct.barrierDone ∈ (runLoop clock se k events).acts →
      ∃ x ∈ (runLoop clock se k events).consumed,
        NetEvent.isAck x = true := by
  intro events
  induction events with
  | nil => intro k h; simp [runLoop] at h
  | cons x t ih =>
      intro k h
      cases x with
      | readErr e => simp [runLoop] at h
      | decodeErr e => simp [runLoop] at h
      | msg m =>
          cases hm : m.Pong with
          | true =>
              refine ⟨.msg m, ?_, ?_⟩
              · simp [runLoop, hm]
              · simp [NetEvent.isAck, hm]
          | false =>
              cases hsk : se k with
              | some e => simp [runLoop, hm, hsk] at h
              | none =>
                  simp only [runLoop, hm, hsk] at h ⊢
                  simp at h
                  rcases ih (k + 1) h with ⟨y, hy, hay⟩
                  exact ⟨y, by simp [hy], hay⟩

/-- If the loop ended with an error, it released no barrier unit. -/
theorem runLoop_failed_no_done (clock : Nat → Nat) (se : Nat → Option String) :
    ∀ (events : List NetEvent) (k : Nat) (e : String),
      (runLoop clock se k events).out = .failed e →
      SessionAct.barrierDone ∉ (runLoop clock se k events).acts := by
  intro events
  induction events with
  | nil => intro k e h; simp [runLoop] at h
  | cons x t ih =>
      intro k e h
      cases x with
      | readErr e' => simp [runLoop]
      | decodeErr e' => simp [runLoop]
      | msg m =>
          cases hm : m.Pong with
          | true => simp [runLoop, hm] at h
          | false =>
              cases hsk : se k with
              | some e' => simp [runLoop, hm, hsk]
              | none =>
                  simp only [runLoop, hm, hsk] at h ⊢
                  simp at h ⊢
                  exact ih (k + 1) e h

end proto

namespace proto

/-- Unfolding of `Run` when the initial send succeeds. -/
theorem Run_eq (clock : Nat → Nat) (se : Nat → Option String)
    (events : List NetEvent) (hs0 : se 0 = none) :
    Run clock se events =
      match runLoop clock se 1 events with
      | ⟨.ponged, a, c⟩ =>
          ⟨.ok, .barrierAdd :: .send ⟨false, clock 0⟩ ::
            (a ++ [.barrierWait, .protoDone]), c⟩
      | ⟨.failed e, a, c⟩ =>
          ⟨.err e, .barrierAdd :: .send ⟨false, clock 0⟩ :: a, c⟩
      | ⟨.starved, a, c⟩ =>
          ⟨.blocked, .barrierAdd :: .send ⟨false, clock 0⟩ :: a, c⟩ := by
  rcases hr : runLoop clock se 1 events with ⟨o, a, c⟩
  cases o <;> simp [Run, hs0, hr]

/-- Every run trace starts with the `pingW.Add(1)`, performs no further
add, and releases at most one barrier unit. -/
theorem Run_trace_shape (clock : Nat → Nat) (se : Nat → Option String)
    (events : List NetEvent) :
    ∃ rest, (Run clock se events).trace = .barrierAdd :: rest ∧
      SessionAct.barrierAdd ∉ rest ∧ donesIn rest ≤ 1 := by
  cases hs0 : se 0 with
  | some e =>
      exact ⟨[], by simp [Run, hs0], by simp, by simp [donesIn]⟩
  | none =>
      rcases hr : runLoop clock se 1 events with ⟨o, a, c⟩
      have hna : SessionAct.barrierAdd ∉ a := by
        have h := runLoop_no_add clock se events 1
        rwa [hr] at h
      have hd1 : donesIn a ≤ 1 := by
        have h := runLoop_dones_le_one clock se events 1
        rwa [hr] at h
      have he := Run_eq clock se events hs0
      rw [hr] at he
      cases o with
      | ponged =>
          refine ⟨.send ⟨false, clock 0⟩ :: (a ++ [.barrierWait, .protoDone]),
            by rw [he], ?_, ?_⟩
          · simp [hna]
          · simp only [donesIn, List.countP_cons, List.countP_append] at hd1 ⊢
            simp [SessionAct.isDone]
            omega
      | failed e =>
          refine ⟨.send ⟨false, clock 0⟩ :: a, by rw [he], ?_, ?_⟩
          · simp [hna]
          · simp only [donesIn, List.countP_cons] at hd1 ⊢
            simp [SessionAct.isDone]
            omega
      | starved =>
          refine ⟨.send ⟨false, clock 0⟩ :: a, by rw [he], ?_, ?_⟩
          · simp [hna]
          · simp only [donesIn, List.countP_cons] at hd1 ⊢
            simp [SessionAct.isDone]
            omega

end proto

/-- **C3**: a session run returns without error exactly when the input,
after its maximal prefix of pings (each of which it merely acknowledges),
continues with a message whose `Pong` flag is true: the receive loop
terminates only after decoding its own acknowledgement, and pings alone
never end it. -/
theorem claim_c3 (clock : Nat → Nat) (se : Nat → Option String)
    (events : List proto.NetEvent) (hse : ∀ i, se i = none) :
    (proto.Run clock se events).out = .ok ↔
      ∃ m rest, events.dropWhile proto.NetEvent.isPing = .msg m :: rest ∧
        m.Pong = true := by
  rcases hr : proto.runLoop clock se 1 events with ⟨o, a, c⟩
  have he := proto.Run_eq clock se events (hse 0)
  rw [hr] at he
  have hiff := proto.runLoop_ponged_iff clock se hse events 1
  rw [hr] at hiff
  cases o with
  | ponged =>
      rw [he]
      simpa using hiff
  | failed e =>
      rw [he]
      simpa using hiff
  | starved =>
      rw [he]
      simpa using hiff

/-- **C3, witness**: a session that receives one peer ping and then its
own acknowledgement returns without error. -/
theorem claim_c3_witness :
    (proto.Run (fun k => k) (fun _ => none)
        [.msg ⟨false, 7⟩, .msg ⟨true, 8⟩]).out = .ok :=
  (claim_c3 (fun k => k) (fun _ => none)
      [.msg ⟨false, 7⟩, .msg ⟨true, 8⟩] (fun _ => rfl)).mpr
    ⟨⟨true, 8⟩, [], by decide, rfl⟩

/-- **C6**: the shared barrier gating protocol shutdown is incremented
exactly once, by the `pingW.Add(1)` that is the session's very first
action; once the run has begun no operation of the run increments it
again — every later barrier operation only decrements or waits. -/
theorem claim_c6 (clock : Nat → Nat) (se : Nat → Option String)
    (events : List proto.NetEvent) :
    (proto.Run clock se events).trace.head? =
      some proto.SessionAct.barrierAdd ∧
    proto.SessionAct.barrierAdd ∉ (proto.Run clock se events).trace.tail := by
  rcases proto.Run_trace_shape clock se events with ⟨rest, hshape, hna, _⟩
  rw [hshape]
  exact ⟨rfl, by simpa using hna⟩

/-- **C7**: if a session's receive (`ReadMsg`) or decode (`Decode`)
fails, the run returns immediately with the wrapped error describing the
failure: the failing event is the last one consumed — no retry, nothing
after it is read — and the error is handed back to the connection owner
as the session's return value. -/
theorem claim_c7 (clock : Nat → Nat) (se : Nat → Option String)
    (hse : ∀ i, se i = none) (pre : List proto.NetEvent)
    (hpre : ∀ x ∈ pre, proto.NetEvent.isPing x = true)
    (bad : proto.NetEvent) (hbad : proto.NetEvent.isFailure bad = true)
    (post : List proto.NetEvent) :
    (proto.Run clock se (pre ++ bad :: post)).out =
      .err (proto.failMsg bad) ∧
    (proto.Run clock se (pre ++ bad :: post)).consumed = pre ++ [bad] := by
  have hl := proto.runLoop_pings_then_fail clock se hse bad hbad post pre 1 hpre
  rw [proto.Run_eq clock se _ (hse 0), hl]
  exact ⟨rfl, rfl⟩

/-- **C7, witness**: after one ping, a read failure `"boom"` ends the run
at once with the wrapped receive error, leaving the later message
unread. -/
theorem claim_c7_witness :
    (proto.Run (fun k => k) (fun _ => none)
        [.msg ⟨false, 3⟩, .readErr "boom", .msg ⟨true, 4⟩]).out =
      .err (proto.failMsg (.readErr "boom")) ∧
    (proto.Run (fun k => k) (fun _ => none)
        [.msg ⟨false, 3⟩, .readErr "boom", .msg ⟨true, 4⟩]).consumed =
      [.msg ⟨false, 3⟩] ++ [.readErr "boom"] :=
  claim_c7 (fun k => k) (fun _ => none) (fun _ => rfl) [.msg ⟨false, 3⟩]
    (by decide) (.readErr "boom") (by decide) [.msg ⟨true, 4⟩]

/-- **C9**: a decoded acknowledgement never causes a send — the sends of
a run are exactly one initial ping plus one pong per ping consumed, so
the number of messages sent is bounded by one more than the number of
pings received and the exchange cannot grow unboundedly. -/
theorem claim_c9 (clock : Nat → Nat) (se : Nat → Option String)
    (events : List proto.NetEvent) (hse : ∀ i, se i = none) :
    proto.sendsIn (proto.Run clock se events).trace =
      1 + (proto.Run clock se events).consumed.countP proto.NetEvent.isPing ∧
    proto.sendsIn (proto.Run clock se events).trace ≤
      1 + events.countP proto.NetEvent.isPing := by
  rcases hr : proto.runLoop clock se 1 events with ⟨o, a, c⟩
  have he := proto.Run_eq clock se events (hse 0)
  rw [hr] at he
  have hs := proto.runLoop_sends clock se hse events 1
  rw [hr] at hs
  have hci := proto.runLoop_consumed_init clock se events 1
  rw [hr] at hci
  rcases hci with ⟨q, hq⟩
  have hq' : c ++ q = events := hq
  have hmono : c.countP proto.NetEvent.isPing ≤
      events.countP proto.NetEvent.isPing := by
    rw [← hq', List.countP_append]
    omega
  cases o with
  | ponged =>
      rw [he]
      refine ⟨?_, ?_⟩ <;>
        · simp only [proto.sendsIn, List.countP_cons, List.countP_append] at hs ⊢
          simp [proto.SessionAct.isSend]
          omega
  | failed e =>
      rw [he]
      refine ⟨?_, ?_⟩ <;>
        · simp only [proto.sendsIn, List.countP_cons] at hs ⊢
          simp [proto.SessionAct.isSend]
          omega
  | starved =>
      rw [he]
      refine ⟨?_, ?_⟩ <;>
        · simp only [proto.sendsIn, List.countP_cons] at hs ⊢
          simp [proto.SessionAct.isSend]
          omega

/-- **C9, witness**: a run consuming one ping and one acknowledgement
sends exactly two messages — the initial ping plus one pong — within the
`1 + pings` bound. -/
theorem claim_c9_witness :
    proto.sendsIn (proto.Run (fun k => k) (fun _ => none)
        [.msg ⟨false, 7⟩, .msg ⟨true, 8⟩]).trace =
      1 + (proto.Run (fun k => k) (fun _ => none)
        [.msg ⟨false, 7⟩, .msg ⟨true, 8⟩]).consumed.countP
          proto.NetEvent.isPing ∧
    proto.sendsIn (proto.Run (fun k => k) (fun _ => none)
        [.msg ⟨false, 7⟩, .msg ⟨true, 8⟩]).trace ≤
      1 + ([.msg ⟨false, 7⟩, .msg ⟨true, 8⟩] : List proto.NetEvent).countP
        proto.NetEvent.isPing :=
  claim_c9 (fun k => k) (fun _ => none) [.msg ⟨false, 7⟩, .msg ⟨true, 8⟩]
    (fun _ => rfl)

/-- **C10**: a session whose run returns an error has added its unit to
the shared completion barrier but never released it: `pingW.Done` happens
only on the path where the session's own acknowledgement was received, so
an erroring session leaves the barrier count elevated. -/
theorem claim_c10 (clock : Nat → Nat) (se : Nat → Option String)
    (events : List proto.NetEvent) (e : String)
    (h : (proto.Run clock se events).out = .err e) :
    proto.SessionAct.barrierAdd ∈ (proto.Run clock se events).trace ∧
    proto.SessionAct.barrierDone ∉ (proto.Run clock se events).trace := by
  cases hs0 : se 0 with
  | some e' =>
      refine ⟨?_, ?_⟩ <;> simp [proto.Run, hs0]
  | none =>
      rcases hr : proto.runLoop clock se 1 events with ⟨o, a, c⟩
      have he := proto.Run_eq clock se events hs0
      rw [hr] at he
      cases o with
      | ponged =>
          rw [he] at h
          simp at h
      | failed e2 =>
          have hnd := proto.runLoop_failed_no_done clock se events 1 e2
            (by rw [hr])
          rw [hr] at hnd
          rw [he]
          refine ⟨by simp, ?_⟩
          simp [hnd]
      | starved =>
          rw [he] at h
          simp at h

/-- **C10, witness**: a run ended by a read failure carries the
`pingW.Add` in its trace and no `pingW.Done`. -/
theorem claim_c10_witness :
    proto.SessionAct.barrierAdd ∈
      (proto.Run (fun k => k) (fun _ => none) [.readErr "x"]).trace ∧
    proto.SessionAct.barrierDone ∉
      (proto.Run (fun k => k) (fun _ => none) [.readErr "x"]).trace :=
  claim_c10 (fun k => k) (fun _ => none) [.readErr "x"]
    "Receive p2p message fail: x" (by decide)

namespace proto

/-- A trace consisting only of sends sends exactly those messages. -/
theorem sentMsgs_map_send (l : List FooPingMsg) :
    sentMsgs (l.map .send) = l := by
  induction l with
  | nil => rfl
  | cons x t ih => simpa [sentMsgs] using ih

/-- Every reply produced by `ackReplies` is an acknowledgement. -/
theorem ackReplies_all_true (clock : Nat → Nat) :
    ∀ (n k : Nat) (y : FooPingMsg), y ∈ ackReplies clock k n →
      y.Pong = true := by
  intro n
  induction n with
  | zero =>
      intro k y hy
      simp [ackReplies] at hy
  | succ n ih =>
      intro k y hy
      simp [ackReplies] at hy
      rcases hy with h | h
      · subst h; rfl
      · exact ih (k + 1) y h

/-- Complete characterisation of a successful run: the input splits into
an all-ping prefix, the session's own acknowledgement, and an unread
remainder; the run acknowledged each ping of the prefix at consecutive
send indices, released one barrier unit, completed its wait and signalled
`protoW`. -/
theorem Run_ok_char (clock : Nat → Nat) (se : Nat → Option String)
    (hse : ∀ i, se i = none) (events : List NetEvent)
    (hok : (Run clock se events).out = .ok) :
    ∃ pre m rest, events = pre ++ .msg m :: rest ∧
      (∀ x ∈ pre, NetEvent.isPing x = true) ∧ m.Pong = true ∧
      Run clock se events =
        ⟨.ok, .barrierAdd :: .send ⟨false, clock 0⟩ ::
          (((ackReplies clock 1 pre.length).map .send ++ [.barrierDone]) ++
            [.barrierWait, .protoDone]),
          pre ++ [.msg m]⟩ := by
  rcases hr : runLoop clock se 1 events with ⟨o, a, c⟩
  have he := Run_eq clock se events (hse 0)
  rw [hr] at he
  have hiff := runLoop_ponged_iff clock se hse events 1
  rw [hr] at hiff
  cases o with
  | failed e =>
      rw [he] at hok
      simp at hok
  | starved =>
      rw [he] at hok
      simp at hok
  | ponged =>
      rcases hiff.mp rfl with ⟨m, rest, hd, hm⟩
      have hev : events = events.takeWhile NetEvent.isPing ++ .msg m :: rest := by
        rw [← hd]
        exact (List.takeWhile_append_dropWhile _ _).symm
      have hl := runLoop_pings_then_ack clock se hse m hm rest
        (events.takeWhile NetEvent.isPing) 1
        (fun x hx => List.mem_takeWhile_imp hx)
      have hl' : runLoop clock se 1 events =
          ⟨.ponged, (ackReplies clock 1
              (events.takeWhile NetEvent.isPing).length).map .send ++
            [.barrierDone],
            events.takeWhile NetEvent.isPing ++ [.msg m]⟩ := by
        rw [← hev] at hl
        exact hl
      refine ⟨events.takeWhile NetEvent.isPing, m, rest, hev,
        fun x hx => List.mem_takeWhile_imp hx, hm, ?_⟩
      rw [Run_eq clock se events (hse 0), hl']

/-- A session that runs to completion against one peer ping followed by
replies that are all acknowledgements sends exactly two messages: the
initial ping at send index 0 and one pong at send index 1. -/
theorem Run_ok_one_ping (clock : Nat → Nat) (se : Nat → Option String)
    (hse : ∀ i, se i = none) (events : List NetEvent)
    (hok : (Run clock se events).out = .ok)
    (p0 : FooPingMsg) (hp0 : p0.Pong = false)
    (acks : List FooPingMsg) (hacks : ∀ y ∈ acks, y.Pong = true)
    (hev : events = .msg p0 :: acks.map .msg) :
    sentMsgs (Run clock se events).trace =
      [⟨false, clock 0⟩, ⟨true, clock 1⟩] := by
  obtain ⟨pre, m, rest, hdec, hpre, hm, hRun⟩ :=
    Run_ok_char clock se hse events hok
  have E : pre ++ .msg m :: rest = .msg p0 :: acks.map .msg :=
    hdec.symm.trans hev
  cases pre with
  | nil =>
      rw [List.nil_append] at E
      injection E with h1 h2
      injection h1 with h1'
      rw [h1'] at hm
      rw [hp0] at hm
      cases hm
  | cons x pre' =>
      rw [List.cons_append] at E
      injection E with h1 E2
      cases acks with
      | nil =>
          simp at E2
      | cons a0 acks' =>
          rw [List.map_cons] at E2
          cases pre' with
          | nil =>
              rw [hRun]
              simp [sentMsgs, ackReplies]
          | cons y pre'' =>
              rw [List.cons_append] at E2
              injection E2 with h3 E3
              have hy : NetEvent.isPing y = true :=
                hpre y (List.mem_cons_of_mem _ (List.mem_cons_self _ _))
              have ha0 : a0.Pong = true := hacks a0 (List.mem_cons_self _ _)
              rw [h3] at hy
              simp [NetEvent.isPing, ha0] at hy

end proto

/-- **C4**: when two sessions complete against each other's output (each
side's input is exactly the other side's sent messages), each side sends
exactly one initial non-reply message — placed in its trace immediately
after the barrier add, before the receive loop — and exactly one
acknowledgement, one per ping received: no duplicate acknowledgements
occur in either direction. -/
theorem claim_c4 (cA cB : Nat → Nat) (seA seB : Nat → Option String)
    (evA evB : List proto.NetEvent)
    (hseA : ∀ i, seA i = none) (hseB : ∀ i, seB i = none)
    (hA : evA = (proto.sentMsgs (proto.Run cB seB evB).trace).map .msg)
    (hB : evB = (proto.sentMsgs (proto.Run cA seA evA).trace).map .msg)
    (hokA : (proto.Run cA seA evA).out = .ok)
    (hokB : (proto.Run cB seB evB).out = .ok) :
    proto.sentMsgs (proto.Run cA seA evA).trace =
      [⟨false, cA 0⟩, ⟨true, cA 1⟩] ∧
    proto.sentMsgs (proto.Run cB seB evB).trace =
      [⟨false, cB 0⟩, ⟨true, cB 1⟩] ∧
    (proto.Run cA seA evA).trace.take 2 =
      [.barrierAdd, .send ⟨false, cA 0⟩] ∧
    (proto.Run cB seB evB).trace.take 2 =
      [.barrierAdd, .send ⟨false, cB 0⟩] := by
  obtain ⟨preA, mA, restA, hdecA, hpreA, hmA, hRunA⟩ :=
    proto.Run_ok_char cA seA hseA evA hokA
  obtain ⟨preB, mB, restB, hdecB, hpreB, hmB, hRunB⟩ :=
    proto.Run_ok_char cB seB hseB evB hokB
  have hsentA : proto.sentMsgs (proto.Run cA seA evA).trace =
      ⟨false, cA 0⟩ :: proto.ackReplies cA 1 preA.length := by
    rw [hRunA]
    have h := proto.sentMsgs_map_send (proto.ackReplies cA 1 preA.length)
    simp [proto.sentMsgs] at h ⊢
    exact h
  have hsentB : proto.sentMsgs (proto.Run cB seB evB).trace =
      ⟨false, cB 0⟩ :: proto.ackReplies cB 1 preB.length := by
    rw [hRunB]
    have h := proto.sentMsgs_map_send (proto.ackReplies cB 1 preB.length)
    simp [proto.sentMsgs] at h ⊢
    exact h
  have hA' : evA = .msg ⟨false, cB 0⟩ ::
      (proto.ackReplies cB 1 preB.length).map .msg := by
    rw [hA, hsentB, List.map_cons]
  have hB' : evB = .msg ⟨false, cA 0⟩ ::
      (proto.ackReplies cA 1 preA.length).map .msg := by
    rw [hB, hsentA, List.map_cons]
  refine ⟨?_, ?_, ?_, ?_⟩
  · exact proto.Run_ok_one_ping cA seA hseA evA hokA ⟨false, cB 0⟩ rfl _
      (fun y hy => proto.ackReplies_all_true cB preB.length 1 y hy) hA'
  · exact proto.Run_ok_one_ping cB seB hseB evB hokB ⟨false, cA 0⟩ rfl _
      (fun y hy => proto.ackReplies_all_true cA preA.length 1 y hy) hB'
  · rw [hRunA]
    rfl
  · rw [hRunB]
    rfl

/-- **C4, witness**: two concrete sessions completing against each
other's output each send exactly one initial ping and one
acknowledgement. -/
theorem claim_c4_witness :
    proto.sentMsgs (proto.Run (fun k => k) (fun _ => none)
        [.msg ⟨false, 100⟩, .msg ⟨true, 101⟩]).trace =
      [⟨false, 0⟩, ⟨true, 1⟩] ∧
    proto.sentMsgs (proto.Run (fun k => 100 + k) (fun _ => none)
        [.msg ⟨false, 0⟩, .msg ⟨true, 1⟩]).trace =
      [⟨false, 100⟩, ⟨true, 101⟩] ∧
    (proto.Run (fun k => k) (fun _ => none)
        [.msg ⟨false, 100⟩, .msg ⟨true, 101⟩]).trace.take 2 =
      [.barrierAdd, .send ⟨false, 0⟩] ∧
    (proto.Run (fun k => 100 + k) (fun _ => none)
        [.msg ⟨false, 0⟩, .msg ⟨true, 1⟩]).trace.take 2 =
      [.barrierAdd, .send ⟨false, 100⟩] :=
  claim_c4 (fun k => k) (fun k => 100 + k) (fun _ => none) (fun _ => none)
    [.msg ⟨false, 100⟩, .msg ⟨true, 101⟩] [.msg ⟨false, 0⟩, .msg ⟨true, 1⟩]
    (fun _ => rfl) (fun _ => rfl) (by decide) (by decide) (by decide)
    (by decide)

namespace proto

/-- `isAdd` recognises exactly the barrier add. -/
theorem isAdd_iff (a : SessionAct) :
    SessionAct.isAdd a = true ↔ a = .barrierAdd := by
  cases a <;> simp [SessionAct.isAdd]

/-- `isDone` recognises exactly the barrier release. -/
theorem isDone_iff (a : SessionAct) :
    SessionAct.isDone a = true ↔ a = .barrierDone := by
  cases a <;> simp [SessionAct.isDone]

/-- A trace without the barrier add has no add actions. -/
theorem addsIn_eq_zero {l : List SessionAct}
    (h : SessionAct.barrierAdd ∉ l) : addsIn l = 0 := by
  rw [addsIn, List.countP_eq_zero]
  exact fun a ha hpa => h (((isAdd_iff a).mp hpa) ▸ ha)

/-- An action belongs to a session's projection exactly when the
schedule carries it tagged with that session. -/
theorem mem_projTrace {n : Nat} (j : Fin n) (a : SessionAct) :
    ∀ l : List (Fin n × SessionAct), a ∈ projTrace j l ↔ (j, a) ∈ l := by
  intro l
  induction l with
  | nil => simp [projTrace]
  | cons q t ih =>
      rcases q with ⟨j0, b⟩
      rcases eq_or_ne j0 j with hj | hj
      · subst hj
        simp [projTrace, ih]
      · simp [projTrace, hj, ih, Ne.symm hj]

/-- Projecting a schedule prefix yields a prefix of the session's
projection. -/
theorem projTrace_take {n : Nat} (j : Fin n) :
    ∀ (l : List (Fin n × SessionAct)) (k : Nat),
      ∃ m, projTrace j (l.take k) = (projTrace j l).take m := by
  intro l
  induction l with
  | nil => intro k; exact ⟨0, by simp [projTrace]⟩
  | cons q t ih =>
      intro k
      cases k with
      | zero => exact ⟨0, by simp [projTrace]⟩
      | succ k' =>
          rcases q with ⟨j0, b⟩
          rcases eq_or_ne j0 j with hj | hj
          · subst hj
            rcases ih k' with ⟨m, hm⟩
            exact ⟨m + 1, by simp [projTrace, hm]⟩
          · rcases ih k' with ⟨m, hm⟩
            exact ⟨m, by simp [projTrace, hj, hm]⟩

/-- Prefixes cannot have more matches than the whole list. -/
theorem countP_take_le {α : Type} (p : α → Bool) :
    ∀ (l : List α) (k : Nat), (l.take k).countP p ≤ l.countP p := by
  intro l
  induction l with
  | nil => intro k; simp
  | cons x t ih =>
      intro k
      cases k with
      | zero => simp
      | succ k' =>
          simp only [List.take_succ_cons, List.countP_cons]
          have := ih k'
          omega

/-- Counting matching actions over a schedule equals summing the counts
of each session's projection. -/
theorem countP_sched_eq_sum {n : Nat} (p : SessionAct → Bool) :
    ∀ l : List (Fin n × SessionAct),
      (l.map Prod.snd).countP p = ∑ j : Fin n, (projTrace j l).countP p := by
  intro l
  induction l with
  | nil => simp [projTrace]
  | cons q t ih =>
      rcases q with ⟨j0, b⟩
      have hsplit : ∀ j : Fin n, (projTrace j ((j0, b) :: t)).countP p =
          (projTrace j t).countP p +
            (if j = j0 then (if p b then 1 else 0) else 0) := by
        intro j
        rcases eq_or_ne j0 j with hj | hj
        · subst hj
          simp [projTrace, List.countP_cons]
        · simp [projTrace, hj, Ne.symm hj]
      rw [List.map_cons, List.countP_cons, ih,
        Finset.sum_congr rfl (fun j _ => hsplit j), Finset.sum_add_distrib]
      simp [Finset.sum_ite_eq']

/-- Prefix-count soundness of a session trace: at every point, releases
never exceed adds, and there is at most one add. -/
theorem Run_trace_prefix_counts (clock : Nat → Nat) (se : Nat → Option String)
    (events : List NetEvent) :
    ∀ m, donesIn ((Run clock se events).trace.take m) ≤
        addsIn ((Run clock se events).trace.take m) ∧
      addsIn ((Run clock se events).trace.take m) ≤ 1 := by
  rcases Run_trace_shape clock se events with ⟨rest, hshape, hna, hd1⟩
  rw [hshape]
  intro m
  cases m with
  | zero => simp [addsIn, donesIn]
  | succ m' =>
      simp only [List.take_succ_cons]
      have hra : (rest.take m').countP SessionAct.isAdd = 0 :=
        Nat.le_zero.mp (le_trans (countP_take_le SessionAct.isAdd rest m')
          (le_of_eq (addsIn_eq_zero hna)))
      have hrd : (rest.take m').countP SessionAct.isDone ≤ 1 :=
        le_trans (countP_take_le SessionAct.isDone rest m') hd1
      refine ⟨?_, ?_⟩
      · rw [donesIn, addsIn,
          List.countP_cons_of_neg SessionAct.isDone (rest.take m') (by decide),
          List.countP_cons_of_pos SessionAct.isAdd (rest.take m') (by decide)]
        omega
      · rw [addsIn,
          List.countP_cons_of_pos SessionAct.isAdd (rest.take m') (by decide)]
        omega

/-- If a run trace contains a barrier release, the session consumed its
own acknowledgement. -/
theorem Run_done_imp_ack (clock : Nat → Nat) (se : Nat → Option String)
    (events : List NetEvent) :
    SessionAct.barrierDone ∈ (Run clock se events).trace →
      ∃ x ∈ (Run clock se events).consumed, NetEvent.isAck x = true := by
  cases hs0 : se 0 with
  | some e =>
      intro h
      simp [Run, hs0] at h
  | none =>
      rcases hr : runLoop clock se 1 events with ⟨o, a, c⟩
      have he := Run_eq clock se events hs0
      rw [hr] at he
      have hla := runLoop_done_imp_ack clock se events 1
      rw [hr] at hla
      cases o with
      | ponged =>
          rw [he]
          intro h
          simp at h
          simpa using hla h
      | failed e =>
          rw [he]
          intro h
          simp at h
          simpa using hla h
      | starved =>
          rw [he]
          intro h
          simp at h
          simpa using hla h

/-- If a run trace contains a completed wait, the run returned nil and
the wait and the final `protoW.Done` are its last two actions. -/
theorem Run_wait_char (clock : Nat → Nat) (se : Nat → Option String)
    (events : List NetEvent) :
    SessionAct.barrierWait ∈ (Run clock se events).trace →
      (Run clock se events).out = .ok ∧
      ∃ t, (Run clock se events).trace =
        t ++ [SessionAct.barrierWait, SessionAct.protoDone] := by
  cases hs0 : se 0 with
  | some e =>
      intro h
      simp [Run, hs0] at h
  | none =>
      rcases hr : runLoop clock se 1 events with ⟨o, a, c⟩
      have he := Run_eq clock se events hs0
      rw [hr] at he
      have hnw := runLoop_no_wait clock se events 1
      rw [hr] at hnw
      cases o with
      | ponged =>
          intro _
          rw [he]
          refine ⟨rfl, ⟨.barrierAdd :: .send ⟨false, clock 0⟩ :: a, ?_⟩⟩
          simp
      | failed e =>
          rw [he]
          intro h
          simp at h
          exact absurd h hnw
      | starved =>
          rw [he]
          intro h
          simp at h
          exact absurd h hnw

end proto

/-- **C5**: under WaitGroup semantics of the shared barrier, whenever a
session's `pingW.Wait()` completes in a valid interleaving of session
runs, every session that had added its unit (begun its run) has already
released it — i.e. has received its own acknowledgement — and the waiting
session itself returned nil only after that wait, its final two actions
being the completed wait and the `protoW` signal: no session returns
while a participating peer still awaits its acknowledgement. -/
theorem claim_c5 {n : Nat} (clock : Fin n → Nat → Nat)
    (se : Fin n → Nat → Option String) (evs : Fin n → List proto.NetEvent)
    (s : List (Fin n × proto.SessionAct))
    (hs : proto.IsSchedule
      (fun i => (proto.Run (clock i) (se i) (evs i)).trace) s)
    (hv : proto.ValidSched s) (k : Nat) (hk : k < s.length) (i : Fin n)
    (hw : s.get ⟨k, hk⟩ = (i, .barrierWait)) :
    (∀ j : Fin n, (j, proto.SessionAct.barrierAdd) ∈ s.take k →
      (j, proto.SessionAct.barrierDone) ∈ s.take k ∧
      ∃ x ∈ (proto.Run (clock j) (se j) (evs j)).consumed,
        proto.NetEvent.isAck x = true) ∧
    (proto.Run (clock i) (se i) (evs i)).out = .ok ∧
    ∃ t, (proto.Run (clock i) (se i) (evs i)).trace =
      t ++ [proto.SessionAct.barrierWait, proto.SessionAct.protoDone] := by
  have hs' : ∀ j : Fin n,
      proto.projTrace j s = (proto.Run (clock j) (se j) (evs j)).trace := hs
  have hv' : ∀ k2, (hk2 : k2 < s.length) →
      (s.get ⟨k2, hk2⟩).2 = proto.SessionAct.barrierWait →
      proto.addsIn ((s.take k2).map Prod.snd) =
        proto.donesIn ((s.take k2).map Prod.snd) := hv
  have hcount : proto.addsIn ((s.take k).map Prod.snd) =
      proto.donesIn ((s.take k).map Prod.snd) := hv' k hk (by rw [hw])
  have hble : ∀ j : Fin n,
      (proto.projTrace j (s.take k)).countP proto.SessionAct.isDone ≤
        (proto.projTrace j (s.take k)).countP proto.SessionAct.isAdd := by
    intro j
    rcases proto.projTrace_take j s k with ⟨m, hm⟩
    rw [hm, hs' j]
    exact (proto.Run_trace_prefix_counts (clock j) (se j) (evs j) m).1
  have hcount' :
      (∑ j : Fin n,
        (proto.projTrace j (s.take k)).countP proto.SessionAct.isAdd) =
      ∑ j : Fin n,
        (proto.projTrace j (s.take k)).countP proto.SessionAct.isDone := by
    rw [← proto.countP_sched_eq_sum proto.SessionAct.isAdd (s.take k),
      ← proto.countP_sched_eq_sum proto.SessionAct.isDone (s.take k)]
    exact hcount
  have hpoint : ∀ j : Fin n,
      (proto.projTrace j (s.take k)).countP proto.SessionAct.isDone =
        (proto.projTrace j (s.take k)).countP proto.SessionAct.isAdd :=
    fun j => (Finset.sum_eq_sum_iff_of_le (fun j2 _ => hble j2)).mp
      hcount'.symm j (Finset.mem_univ j)
  refine ⟨?_, ?_⟩
  · intro j hj
    have hadd_pos :
        0 < (proto.projTrace j (s.take k)).countP proto.SessionAct.isAdd := by
      rw [List.countP_pos_iff]
      exact ⟨.barrierAdd, (proto.mem_projTrace j _ (s.take k)).mpr hj, rfl⟩
    have hdone_pos :
        0 < (proto.projTrace j (s.take k)).countP proto.SessionAct.isDone := by
      rw [hpoint j]
      exact hadd_pos
    rcases List.countP_pos_iff.mp hdone_pos with ⟨a, ha, hpa⟩
    have haeq : a = proto.SessionAct.barrierDone := (proto.isDone_iff a).mp hpa
    rw [haeq] at ha
    refine ⟨(proto.mem_projTrace j _ (s.take k)).mp ha, ?_⟩
    rcases proto.projTrace_take j s k with ⟨m, hm⟩
    have hfull : proto.SessionAct.barrierDone ∈ proto.projTrace j s := by
      rw [hm] at ha
      exact List.mem_of_mem_take ha
    rw [hs' j] at hfull
    exact proto.Run_done_imp_ack (clock j) (se j) (evs j) hfull
  · have hw_mem : (i, proto.SessionAct.barrierWait) ∈ s :=
      hw ▸ List.get_mem s k hk
    have hmem : proto.SessionAct.barrierWait ∈ proto.projTrace i s :=
      (proto.mem_projTrace i _ s).mpr hw_mem
    rw [hs' i] at hmem
    exact proto.Run_wait_char (clock i) (se i) (evs i) hmem

/-- **C5, witness**: in the concrete two-session schedule `sampleSched`,
session 0's wait completes only after session 1 (which had added its
unit) released the barrier upon consuming its own acknowledgement, and
session 0's run ends with the completed wait followed by the `protoW`
signal. -/
theorem claim_c5_witness :
    ((1 : Fin 2), proto.SessionAct.barrierDone) ∈ proto.sampleSched.take 8 ∧
    (∃ x ∈ (proto.Run (fun u => u) (fun _ => none)
        proto.sampleEvents).consumed, proto.NetEvent.isAck x = true) ∧
    (proto.Run (fun u => u) (fun _ => none) proto.sampleEvents).out = .ok ∧
    ∃ t, (proto.Run (fun u => u) (fun _ => none) proto.sampleEvents).trace =
      t ++ [proto.SessionAct.barrierWait, proto.SessionAct.protoDone] := by
  have h := claim_c5 (fun _ => fun u => u) (fun _ => fun _ => none)
    (fun _ => proto.sampleEvents) proto.sampleSched
    (by unfold proto.IsSchedule; decide) (by unfold proto.ValidSched; decide)
    8 (by decide) 0 (by decide)
  rcases h with ⟨hall, hok, ht⟩
  have h1 := hall 1 (by decide)
  exact ⟨h1.1, h1.2, hok, ht⟩
